import Mathlib

/-!
Verification of the quest-family-illustrations compositor
(src/compositor_v1/compositor.py) against its natural-language
specification.  The Python source is shallowly embedded below: pure
pixel arithmetic is translated to executable Lean functions on ℕ/ℤ/ℚ,
fallible code returns Except, and the PIL raster primitives that the
claims never inspect (image decoding, Gaussian blur, Lanczos
resampling, alpha paste, the float-percentile shadow sampler) are
abstracted as parameters of an Env structure.  Floating point: where
the source computes with IEEE doubles and the rounding genuinely
matters (discontinuous int() truncation of products and quotients), we
model the doubles exactly with flDouble, an executable
round-to-nearest-even on ℚ with a 53-bit significand.
-/

/-- One RGBA pixel; channel values are bytes (0..255) in the source. -/
structure Pixel where
  r : ℕ
  g : ℕ
  b : ℕ
  a : ℕ
deriving DecidableEq, Repr

instance : Inhabited Pixel := ⟨⟨0, 0, 0, 0⟩⟩

/-- A raster image: stored width and height plus the pixel grid as a
list of rows (row 0 at the top), mirroring PIL row-major layout. -/
structure Img where
  w : ℕ
  h : ℕ
  rows : List (List Pixel)
deriving DecidableEq, Repr

instance : Inhabited Img := ⟨⟨0, 0, []⟩⟩

/-- Pixel access with a transparent-black default outside the grid. -/
def Img.pix (img : Img) (x y : ℕ) : Pixel :=
  (img.rows.getD y []).getD x default

-- Constants from compositor.py lines 20-30.
def NUM_POSES : ℕ := 5
def WHITE_LOW : ℕ := 220
def WHITE_HIGH : ℕ := 245
def ALPHA_BLUR_RADIUS : ℕ := 1
def SHADOW_OFFSET : ℤ × ℤ := (4, 6)
def SHADOW_BLUR_RADIUS : ℕ := 8
def FEET_ALPHA_THRESHOLD : ℕ := 10

/-! ## Exact model of IEEE-754 double rounding

The source multiplies and divides Python floats and then truncates
with int().  flDouble rounds a rational to the nearest binary64 value
(round to nearest, ties to even; the exponent range is treated as
unbounded, which is exact for every magnitude that can arise from the
byte-sized and image-sized quantities here). -/

/-- Round a rational to the nearest integer, ties to even. -/
def roundHalfEven (x : ℚ) : ℤ :=
  let n := ⌊x⌋
  let r := x - (n : ℚ)
  if r < 1/2 then n
  else if 1/2 < r then n + 1
  else if n % 2 = 0 then n else n + 1

/-- For x > 0, the largest e : ℤ with 2 ^ e ≤ x. -/
def ratLog2 (x : ℚ) : ℤ :=
  let p := x.num.toNat
  let q := x.den
  let e0 : ℤ := (Nat.log2 p : ℤ) - (Nat.log2 q : ℤ)
  let ok : Bool :=
    if 0 ≤ e0 then decide (2 ^ e0.toNat * q ≤ p) else decide (q ≤ 2 ^ (-e0).toNat * p)
  if ok then e0 else e0 - 1

/-- Round a positive rational to the nearest 53-bit dyadic value. -/
def flPos (y : ℚ) : ℚ :=
  let e := ratLog2 y
  if 0 ≤ 52 - e then
    let k := (52 - e).toNat
    (roundHalfEven (y * ((2 ^ k : ℕ) : ℚ)) : ℚ) / ((2 ^ k : ℕ) : ℚ)
  else
    let k := (e - 52).toNat
    (roundHalfEven (y / ((2 ^ k : ℕ) : ℚ)) : ℚ) * ((2 ^ k : ℕ) : ℚ)

/-- Round a rational to the nearest IEEE-754 double. -/
def flDouble (x : ℚ) : ℚ :=
  if x = 0 then 0 else if 0 < x then flPos x else -(flPos (-x))

/-- Python int() applied to a float: truncation toward zero. -/
def pyInt (q : ℚ) : ℤ :=
  if 0 ≤ q then ⌊q⌋ else -⌊-q⌋

/-! ## Background Keyer (_remove_white_background, lines 47-83) -/

/-- Per-pixel alpha rule of _remove_white_background (lines 59-71).
The source computes the band value as int(orig_a * ((245 - L) / 25))
in IEEE doubles; on the full byte domain (a ≤ 255, 220 < L < 245) that
float expression coincides exactly with truncated integer division,
which is the form embedded here. -/
def keyAlpha (a L : ℕ) : ℕ :=
  if WHITE_HIGH ≤ L then 0
  else if L ≤ WHITE_LOW then a
  else a * (WHITE_HIGH - L) / (WHITE_HIGH - WHITE_LOW)

/-- Whiteness proxy L = max(R,G,B) (line 59). -/
def maxChannel (p : Pixel) : ℕ := max p.r (max p.g p.b)

/-- The per-pixel pass of _remove_white_background: RGB is copied
through unchanged and the alpha is rewritten by keyAlpha. -/
def keyedPixel (p : Pixel) : Pixel :=
  ⟨p.r, p.g, p.b, keyAlpha p.a (maxChannel p)⟩

/-- Full _remove_white_background on an image.  blur is the PIL
GaussianBlur of radius ALPHA_BLUR_RADIUS acting on the 2-d alpha
channel, abstracted since no claim inspects blurred values; the source
applies it to the alpha channel alone and recombines with the
unblurred RGB channels (lines 76-81). -/
def removeWhiteBackground (blur : List (List ℕ) → List (List ℕ)) (img : Img) : Img :=
  let keyed := img.rows.map (fun row => row.map keyedPixel)
  let rows :=
    if 0 < ALPHA_BLUR_RADIUS then
      let blurred := blur (keyed.map (fun row => row.map Pixel.a))
      List.zipWith (fun pr ar => List.zipWith (fun p v => { p with a := v }) pr ar)
        keyed blurred
    else keyed
  ⟨img.w, img.h, rows⟩

/-! ## Sprite Extractor (_crop_poses, lines 33-44) -/

/-- PIL Image.crop with box (left, upper, right, lower). -/
def Img.crop (img : Img) (left upper right lower : ℕ) : Img :=
  ⟨right - left, lower - upper,
    ((img.rows.drop upper).take (lower - upper)).map
      (fun row => (row.drop left).take (right - left))⟩

/-- _crop_poses: split the sheet into NUM_POSES columns, the last one
absorbing the integer-division remainder. -/
def cropPoses (sheet : Img) : Except String (List Img) :=
  if sheet.w < NUM_POSES ∨ sheet.h < 1 then
    .error "Sprite sheet too small"
  else
    let colWidth := sheet.w / NUM_POSES
    .ok ((List.range NUM_POSES).map (fun i =>
      let left := i * colWidth
      let right := if i < NUM_POSES - 1 then (i + 1) * colWidth else sheet.w
      sheet.crop left 0 right sheet.h))

/-! ## Ground Anchor Locator (_lowest_opaque_row, lines 86-103) -/

/-- Whether a row contains a pixel with alpha at or above the feet
threshold (the inner x loop of lines 98-100). -/
def rowOpaque (row : List Pixel) : Bool :=
  row.any (fun p => FEET_ALPHA_THRESHOLD ≤ p.a)

/-- _lowest_opaque_row: scan rows from the bottom (h-1) upward and
return the first row with an opaque pixel, else the image height. -/
def lowestOpaqueRow (img : Img) : ℕ :=
  match (List.range img.h).reverse.find? (fun y => rowOpaque (img.rows.getD y [])) with
  | some y => y
  | none => img.h

/-! ## Placement math (_composite_one, lines 219-226) -/

/-- Anchor point within the pose (lines 221-222): horizontal centre by
floor division, vertical the feet row. -/
def anchorPoint (pw feetRow : ℕ) : ℕ × ℕ :=
  (pw / 2, feetRow)

/-- Target point on the canvas (lines 223-224): cx = int(x_frac * bw),
cy = int(y_frac * bh), the products taken in IEEE doubles and
truncated toward zero by int(). -/
def targetPoint (xf yf : ℚ) (bw bh : ℕ) : ℤ × ℤ :=
  (pyInt (flDouble (xf * (bw : ℚ))), pyInt (flDouble (yf * (bh : ℚ))))

/-- Sprite paste origin (lines 225-226): target minus anchor. -/
def compositeOnePaste (pw feetRow : ℕ) (xf yf : ℚ) (bw bh : ℕ) : ℤ × ℤ :=
  let a := anchorPoint pw feetRow
  let t := targetPoint xf yf bw bh
  (t.1 - (a.1 : ℤ), t.2 - (a.2 : ℤ))

/-! ## Scaling (_resize_pose, lines 106-112, and the feet-row rescale
inside composite, lines 382-388) -/

/-- Feet-row rescaling from composite lines 382-388:
feet_row_scaled = int(feet_row_orig * (scaled_h / orig_h)) when
orig_h > 0, else scaled_h.  Both the division and the product are IEEE
double operations. -/
def feetRowScaled (feetRowOrig origH scaledH : ℕ) : ℕ :=
  if 0 < origH then
    (pyInt (flDouble ((feetRowOrig : ℚ) * flDouble ((scaledH : ℚ) / (origH : ℚ))))).toNat
  else scaledH

/-! ## Abstracted raster environment

PIL primitives whose pixel-level output no claim inspects are
parameters: image decoding, the Gaussian blur, Lanczos resampling,
the float-percentile shadow-colour sampler (_sample_shadow_color,
lines 115-164), the shadow pixel loop of _shadow_from_alpha, and
Image.paste with an alpha mask. -/

structure Env where
  fileExists : String → Bool
  load : String → Img
  gaussianBlurAlpha : List (List ℕ) → List (List ℕ)
  lanczos : Img → ℕ → ℕ → List (List Pixel)
  shadowColorSample : Img → ℤ × ℤ × ℤ × ℤ → ℕ × ℕ × ℕ
  shadowRender : List (List ℕ) → ℕ × ℕ × ℕ → List (List Pixel)
  pasteMask : Img → Img → ℤ × ℤ → Img

/-- _resize_pose (lines 106-112): new height = max(1, int(scale *
bg_height)); width kept proportional via the float ratio; content by
Lanczos resampling (abstract). -/
def resizePose (env : Env) (pose : Img) (bgHeight : ℕ) (scale : ℚ) : Img :=
  let hNew := max 1 (pyInt (flDouble (scale * (bgHeight : ℚ)))).toNat
  let ratio := flDouble ((hNew : ℚ) / (pose.h : ℚ))
  let wNew := max 1 (pyInt (flDouble ((pose.w : ℚ) * ratio))).toNat
  ⟨wNew, hNew, env.lanczos pose wNew hNew⟩

/-- The alpha channel of an image, as pose_rgba.split()[3]. -/
def Img.alphaChan (img : Img) : List (List ℕ) :=
  img.rows.map (fun row => row.map Pixel.a)

/-- _shadow_from_alpha (lines 167-202): the pad arithmetic is explicit,
the blurred-and-recoloured pixel content is abstract. -/
def shadowFromAlpha (env : Env) (alpha : List (List ℕ)) (w h : ℕ)
    (offset : ℤ × ℤ) (blur : ℕ) (color : ℕ × ℕ × ℕ) : Img × ℕ :=
  let pad := blur * 2 + max offset.1.natAbs offset.2.natAbs
  let tw := w + 2 * pad
  let th := h + 2 * pad
  (⟨tw, th, env.shadowRender alpha color⟩, pad)

/-- _composite_one (lines 205-246): compute the paste origin, estimate
the shadow-sampling region, build the shadow, paste shadow then
sprite. -/
def compositeOne (env : Env) (canvas background pose : Img)
    (xf yf : ℚ) (bw bh feetRow : ℕ) : Img :=
  let pw := pose.w
  let ph := pose.h
  let paste := compositeOnePaste pw feetRow xf yf bw bh
  let ox := SHADOW_OFFSET.1
  let oy := SHADOW_OFFSET.2
  let sx0 := max 0 (paste.1 - (pw / 4 : ℕ))
  let sy0 := max 0 (paste.2 + (ph / 2 : ℕ))
  let sx1 := min (bw : ℤ) (paste.1 + (pw : ℤ) + (pw / 4 : ℕ))
  let sy1 := min (bh : ℤ) (paste.2 + (ph : ℤ) + (ph / 2 : ℕ) + oy * 2)
  let color := env.shadowColorSample background (sx0, sy0, sx1, sy1)
  let sh := shadowFromAlpha env pose.alphaChan pw ph SHADOW_OFFSET SHADOW_BLUR_RADIUS color
  let sx := paste.1 + ox - ((sh.2 : ℤ) + ox)
  let sy := paste.2 + oy - ((sh.2 : ℤ) + oy)
  let canvas1 := env.pasteMask canvas sh.1 (sx, sy)
  env.pasteMask canvas1 pose paste

/-! ## Config model and validator (_validate_config, lines 249-321)

A character entry and a scene config; `none` models an absent JSON
key.  File existence is supplied by the environment. -/

structure Character where
  spriteSheet : Option String
  poseIndex : Option ℚ
  x : Option ℚ
  y : Option ℚ
  scale : Option ℚ
  scaleOverride : Option ℚ
deriving DecidableEq, Repr

structure Config where
  background : Option String
  baseScale : Option ℚ
  characters : Option (List Character)
deriving DecidableEq, Repr

/-- Per-character checks of the loop body, lines 277-315, in source
order.  Note the pose_index check is the purely numeric
`0 <= pi < NUM_POSES`: integrality is not tested. -/
def validateChar (fe : String → Bool) (hasBase : Bool) (c : Character) :
    Except String Unit :=
  match c.spriteSheet with
  | none => .error "missing sprite_sheet"
  | some p =>
    if fe p = false then .error "sprite sheet not found"
    else
      match c.poseIndex with
      | none => .error "pose_index out of range"
      | some pi =>
        if ¬ (0 ≤ pi ∧ pi < (NUM_POSES : ℚ)) then .error "pose_index out of range"
        else
          match c.x, c.y with
          | some x, some y =>
            if ¬ (0 ≤ x ∧ x ≤ 1 ∧ 0 ≤ y ∧ y ≤ 1) then .error "x,y out of range"
            else
              if hasBase then
                match c.scaleOverride with
                | some so =>
                  if ¬ (0 < so ∧ so ≤ 2) then .error "scale_override out of range"
                  else .ok ()
                | none => .ok ()
              else
                match c.scale with
                | some s =>
                  if ¬ (0 < s ∧ s ≤ 1) then .error "scale out of range"
                  else .ok ()
                | none => .error "scale out of range"
          | _, _ => .error "missing x or y"

/-- The `for i, c in enumerate(...)` loop: fail on the first bad
character. -/
def validateChars (fe : String → Bool) (hasBase : Bool) :
    List Character → Except String Unit
  | [] => .ok ()
  | c :: rest =>
    match validateChar fe hasBase c with
    | .ok () => validateChars fe hasBase rest
    | .error e => .error e

/-- _validate_config, in source order: background key, characters key,
background existence, the character loop, and finally the base_scale
range check (lines 317-321 run after the loop). -/
def validateConfig (fe : String → Bool) (cfg : Config) : Except String Unit :=
  match cfg.background with
  | none => .error "Config must include background"
  | some bg =>
    match cfg.characters with
    | none => .error "Config must include characters"
    | some chars =>
      if fe bg = false then .error "Background not found"
      else
        match validateChars fe cfg.baseScale.isSome chars with
        | .error e => .error e
        | .ok () =>
          match cfg.baseScale with
          | some bs =>
            if ¬ (0 < bs ∧ bs ≤ 1) then .error "base_scale out of range" else .ok ()
          | none => .ok ()

/-! ## Scene compositing (composite, lines 324-401, and
composite_to_file, lines 404-409) with an event trace -/

inductive Event where
  | openImage (path : String)
  | savePng (path : String)
  | mkdirParent (path : String)
deriving DecidableEq, Repr

/-- Effective-scale resolution from composite lines 373-378: with a
base scale, scale = base_scale * c.get("scale_override", 1.0);
otherwise scale = float(c["scale"]) (a KeyError if absent, which
validation rules out). -/
def resolveScale (baseScale : Option ℚ) (c : Character) : Except String ℚ :=
  match baseScale with
  | some b => .ok (b * c.scaleOverride.getD 1)
  | none =>
    match c.scale with
    | some s => .ok s
    | none => .error "KeyError: scale"

/-- Image.open(...).convert("RGB"): drops any alpha, so the later
RGBA conversion sees original alpha 255. -/
def Img.toRGB (img : Img) : Img :=
  ⟨img.w, img.h, img.rows.map (fun row => row.map (fun p => { p with a := 255 }))⟩

/-- Python poses[idx]: a TypeError for a non-integral float index, an
IndexError out of range (negative wrap-around never arises here since
the index was validated nonnegative). -/
def listIndex (poses : List Img) (idx : ℚ) : Except String Img :=
  if idx.den ≠ 1 then .error "TypeError: list index"
  else
    match poses.get? idx.num.toNat with
    | some p => if 0 ≤ idx.num then .ok p else .error "IndexError"
    | none => .error "IndexError"

/-- The per-character body of the loop in composite (lines 359-399),
threading the canvas and collecting an openImage event per sprite
sheet; aborts on the first failure, as an uncaught exception would. -/
def compositeChars (env : Env) (background : Img) (bw bh : ℕ)
    (baseScale : Option ℚ) :
    Img → List Character → List Event × Except String Img
  | canvas, [] => ([], .ok canvas)
  | canvas, c :: rest =>
    match c.spriteSheet with
    | none => ([], .error "KeyError: sprite_sheet")
    | some sheetPath =>
      let sheet := (env.load sheetPath).toRGB
      let ev := Event.openImage sheetPath
      match cropPoses sheet with
      | .error e => ([ev], .error e)
      | .ok poses =>
        match c.poseIndex with
        | none => ([ev], .error "KeyError: pose_index")
        | some idx =>
          match listIndex poses idx with
          | .error e => ([ev], .error e)
          | .ok pose =>
            let poseRgba := removeWhiteBackground env.gaussianBlurAlpha pose
            let feetOrig := lowestOpaqueRow poseRgba
            match resolveScale baseScale c with
            | .error e => ([ev], .error e)
            | .ok scale =>
              match c.x, c.y with
              | some xf, some yf =>
                let poseScaled := resizePose env poseRgba bh scale
                let fs := feetRowScaled feetOrig poseRgba.h poseScaled.h
                let canvas1 := compositeOne env canvas background poseScaled xf yf bw bh fs
                let next := compositeChars env background bw bh baseScale canvas1 rest
                (ev :: next.1, next.2)
              | _, _ => ([ev], .error "KeyError: x or y")

/-- composite (lines 324-401): validate first, then open the
background, then process the characters in order. -/
def composite (env : Env) (cfg : Config) : List Event × Except String Img :=
  match validateConfig env.fileExists cfg with
  | .error e => ([], .error e)
  | .ok () =>
    match cfg.background, cfg.characters with
    | some bgPath, some chars =>
      let background := env.load bgPath
      let r := compositeChars env background background.w background.h
        cfg.baseScale background chars
      (Event.openImage bgPath :: r.1, r.2)
    | _, _ => ([], .error "unreachable")

/-- composite_to_file (lines 404-409): create the parent directory,
run composite, and only on success save the PNG. -/
def compositeToFile (env : Env) (cfg : Config) (out : String) :
    List Event × Except String Unit :=
  let r := composite env cfg
  match r.2 with
  | .ok _ => (Event.mkdirParent out :: r.1 ++ [Event.savePng out], .ok ())
  | .error e => (Event.mkdirParent out :: r.1, .error e)

/-! ## Spec-side formulas and concrete instances for the claims -/

/-- Spec-side per-pixel alpha formula, written from the wording of the
keyer claim: alpha 0 at or above WHITE_HIGH, original alpha at or
below WHITE_LOW, and truncate(a * (245 - L) / (245 - 220)) inside the
band, with exact rational arithmetic. -/
def keyAlphaSpec (a L : ℕ) : ℕ :=
  if 245 ≤ L then 0
  else if L ≤ 220 then a
  else (⌊(a : ℚ) * ((245 : ℚ) - (L : ℚ)) / ((245 : ℚ) - 220)⌋).toNat

/-- Height-30 image, 20 pixels wide, opaque exactly in rows 10..20. -/
def img30 : Img :=
  ⟨20, 30, (List.range 30).map (fun y =>
    (List.range 20).map (fun _ =>
      ⟨255, 0, 0, if 10 ≤ y ∧ y ≤ 20 then 255 else 0⟩))⟩

/-- A 7-wide, 1-tall sheet used to instantiate the extractor theorem. -/
def sheet7 : Img :=
  ⟨7, 1, [(List.range 7).map (fun _ => ⟨100, 100, 100, 255⟩)]⟩

/-- Spec-side paste-origin formula, following the amended placement
claim: the canvas target is the truncation (floor; both coordinates
nonnegative) of (x_frac * bg_width, y_frac * bg_height) and the paste
origin subtracts the anchor (pw / 2, feet_row), pw / 2 by floor
division. -/
def pasteOriginSpec (pw feetRow : ℕ) (xf yf : ℚ) (bw bh : ℕ) : ℤ × ℤ :=
  (⌊xf * (bw : ℚ)⌋ - ((pw / 2 : ℕ) : ℤ), ⌊yf * (bh : ℚ)⌋ - (feetRow : ℤ))

/-- Spec-side feet-row rescale, following the amended claim: the
truncation (not rounding) of feet_row_orig * scaled_height /
orig_height, in exact arithmetic, with the orig_height = 0 guard
defaulting to scaled_height. -/
def feetRowScaledSpec (feetRowOrig origH scaledH : ℕ) : ℕ :=
  if 0 < origH then (⌊((feetRowOrig * scaledH : ℕ) : ℚ) / (origH : ℚ)⌋).toNat
  else scaledH

/-- RGB channels of a pixel. -/
def rgbOf (p : Pixel) : ℕ × ℕ × ℕ := (p.r, p.g, p.b)

/-- The RGB content of an image, pixel by pixel. -/
def rgbRows (img : Img) : List (List (ℕ × ℕ × ℕ)) :=
  img.rows.map (fun row => row.map rgbOf)

/-- A small concrete image for the keyer frame-effect witness. -/
def imgC6 : Img := ⟨2, 1, [[⟨10, 20, 30, 255⟩, ⟨240, 240, 240, 255⟩]]⟩

/-- Spec-side per-character validation constraints, following the
amended validator claim: sprite_sheet present and existing, pose_index
present and numerically in [0, 5) (integrality is not checked), x and
y present in [0,1]; with a base scale an optional scale_override must
lie in (0,2], without one a scale in (0,1] is required. -/
def charOk (fe : String → Bool) (hasBase : Bool) (c : Character) : Prop :=
  (∃ p, c.spriteSheet = some p ∧ fe p = true)
  ∧ (∃ q, c.poseIndex = some q ∧ 0 ≤ q ∧ q < 5)
  ∧ (∃ x, c.x = some x ∧ 0 ≤ x ∧ x ≤ 1)
  ∧ (∃ y, c.y = some y ∧ 0 ≤ y ∧ y ≤ 1)
  ∧ (hasBase = true → ∀ so, c.scaleOverride = some so → 0 < so ∧ so ≤ 2)
  ∧ (hasBase = false → ∃ s, c.scale = some s ∧ 0 < s ∧ s ≤ 1)

/-- Spec-side whole-config constraints for the amended validator
claim: background present and existing, characters present and each
satisfying charOk, and base_scale in (0,1] when present. -/
def configOk (fe : String → Bool) (cfg : Config) : Prop :=
  (∃ bg, cfg.background = some bg ∧ fe bg = true)
  ∧ (∃ chars, cfg.characters = some chars ∧ ∀ c ∈ chars, charOk fe cfg.baseScale.isSome c)
  ∧ (∀ bs, cfg.baseScale = some bs → 0 < bs ∧ bs ≤ 1)

/-- Concrete config with the non-integral pose_index 5/2 and every
other field valid. -/
def cfgHalfPose : Config :=
  ⟨some "bg.png", none,
    some [⟨some "sheet.png", some (5/2), some (1/2), some (1/2), some (1/2), none⟩]⟩

/-- A fully valid concrete config for the validator witness. -/
def cfgValid : Config :=
  ⟨some "bg.png", some (1/4),
    some [⟨some "s.png", some 2, some (1/2), some (3/4), none, some 1⟩]⟩

/-- A concrete environment with no existing files and trivial raster
primitives, for the trace witness. -/
def envW : Env :=
  ⟨fun _ => false, fun _ => default, fun a => a, fun _ _ _ => [],
    fun _ _ => (50, 50, 50), fun _ _ => [], fun c _ _ => c⟩

/-- A config missing its background key. -/
def cfgNoBg : Config := ⟨none, none, none⟩

/-! ## Theorems -/

lemma keyAlpha_eq_spec (a L : ℕ) : keyAlpha a L = keyAlphaSpec a L := by
  unfold keyAlpha keyAlphaSpec WHITE_HIGH WHITE_LOW
  split_ifs with h1 h2
  · rfl
  · rfl
  · have h245 : L ≤ 245 := by omega
    have hcast : (a : ℚ) * ((245 : ℚ) - (L : ℚ)) / ((245 : ℚ) - 220)
        = ((a * (245 - L) : ℕ) : ℚ) / ((25 : ℕ) : ℚ) := by
      push_cast [h245]
      ring
    rw [hcast, Int.floor_toNat, Nat.floor_div_eq_div]

/-- C1: for every RGB(A) pixel with original alpha a and
L = max(R,G,B), the pre-blur keyed alpha is 0 for L at or above 245,
the original alpha for L at or below 220, and
truncate(a * (245 - L) / (245 - 220)) strictly inside the band. -/
theorem keyer_preblur_alpha_rule (p : Pixel) :
    (keyedPixel p).a = keyAlphaSpec p.a (maxChannel p) := by
  simpa [keyedPixel] using keyAlpha_eq_spec p.a (maxChannel p)

lemma keyAlpha_le (a L : ℕ) : keyAlpha a L ≤ a := by
  unfold keyAlpha
  split_ifs with h1 h2
  · exact Nat.zero_le a
  · exact le_rfl
  · calc a * (WHITE_HIGH - L) / (WHITE_HIGH - WHITE_LOW)
        ≤ a * (WHITE_HIGH - WHITE_LOW) / (WHITE_HIGH - WHITE_LOW) := by
          refine Nat.div_le_div_right (Nat.mul_le_mul le_rfl ?_)
          unfold WHITE_HIGH WHITE_LOW at *
          omega
      _ = a := Nat.mul_div_cancel a (by unfold WHITE_HIGH WHITE_LOW; omega)

lemma keyAlpha_antitone (a L1 L2 : ℕ) (h : L1 ≤ L2) :
    keyAlpha a L2 ≤ keyAlpha a L1 := by
  by_cases h2 : WHITE_HIGH ≤ L2
  · unfold keyAlpha
    rw [if_pos h2]
    exact Nat.zero_le _
  · by_cases h2' : L2 ≤ WHITE_LOW
    · have h1' : L1 ≤ WHITE_LOW := le_trans h h2'
      unfold keyAlpha
      rw [if_neg h2, if_pos h2', if_neg (by omega : ¬ WHITE_HIGH ≤ L1), if_pos h1']
    · by_cases h1 : L1 ≤ WHITE_LOW
      · calc keyAlpha a L2 ≤ a := keyAlpha_le a L2
          _ = keyAlpha a L1 := by
              unfold keyAlpha
              rw [if_neg (by omega : ¬ WHITE_HIGH ≤ L1), if_pos h1]
      · unfold keyAlpha
        rw [if_neg h2, if_neg h2', if_neg (by omega : ¬ WHITE_HIGH ≤ L1), if_neg h1]
        exact Nat.div_le_div_right (Nat.mul_le_mul le_rfl (by omega))

/-- C7: for two pixels with the same original alpha, the pre-blur
keyed alpha is non-increasing in whiteness L = max(R,G,B); pixels at
or below the low threshold keep their original alpha and pixels at or
above the high threshold get alpha 0. -/
theorem keyer_alpha_monotone (p q : Pixel) (hA : p.a = q.a)
    (hL : maxChannel p ≤ maxChannel q) :
    (keyedPixel q).a ≤ (keyedPixel p).a
    ∧ (maxChannel p ≤ WHITE_LOW → (keyedPixel p).a = p.a)
    ∧ (WHITE_HIGH ≤ maxChannel q → (keyedPixel q).a = 0) := by
  refine ⟨?_, ?_, ?_⟩
  · show keyAlpha q.a (maxChannel q) ≤ keyAlpha p.a (maxChannel p)
    rw [hA]
    exact keyAlpha_antitone q.a (maxChannel p) (maxChannel q) hL
  · intro hlow
    show keyAlpha p.a (maxChannel p) = p.a
    unfold keyAlpha
    rw [if_neg (by unfold WHITE_HIGH WHITE_LOW at *; omega), if_pos hlow]
  · intro hhigh
    show keyAlpha q.a (maxChannel q) = 0
    unfold keyAlpha
    rw [if_pos hhigh]

/-- Witness for the monotonicity theorem at concrete pixels with
L = 100 and L = 230. -/
theorem keyer_alpha_monotone_witness :
    (keyedPixel ⟨230, 230, 230, 255⟩).a ≤ (keyedPixel ⟨100, 100, 100, 255⟩).a :=
  (keyer_alpha_monotone ⟨100, 100, 100, 255⟩ ⟨230, 230, 230, 255⟩ rfl (by decide)).1

lemma find?_reverse_range_eq_some (p : ℕ → Bool) (h y : ℕ)
    (hy : y < h) (hp : p y = true)
    (hab : ∀ z, y < z → z < h → p z = false) :
    (List.range h).reverse.find? p = some y := by
  induction h with
  | zero => omega
  | succ n ih =>
    rw [List.range_succ, List.reverse_append]
    by_cases hn : y = n
    · subst hn
      simp [List.find?, hp]
    · have hy' : y < n := by omega
      have hfn : p n = false := hab n (by omega) (by omega)
      simp only [List.reverse_singleton, List.singleton_append, List.find?, hfn]
      exact ih hy' (fun z hz1 hz2 => hab z hz1 (by omega))

lemma find?_reverse_range_eq_none (p : ℕ → Bool) (h : ℕ)
    (hnone : ∀ z, z < h → p z = false) :
    (List.range h).reverse.find? p = none := by
  rw [List.find?_eq_none]
  intro x hx
  rw [List.mem_reverse, List.mem_range] at hx
  simp [hnone x hx]

/-- C4: the Ground Anchor Locator returns the largest row index whose
row contains a pixel with alpha at or above FEET_ALPHA_THRESHOLD, and
the image height when no row qualifies. -/
theorem lowestOpaqueRow_correct (img : Img) :
    (∀ y, y < img.h → rowOpaque (img.rows.getD y []) = true →
      (∀ z, y < z → z < img.h → rowOpaque (img.rows.getD z []) = false) →
      lowestOpaqueRow img = y)
    ∧ ((∀ y, y < img.h → rowOpaque (img.rows.getD y []) = false) →
      lowestOpaqueRow img = img.h) := by
  constructor
  · intro y hy hp hab
    unfold lowestOpaqueRow
    rw [find?_reverse_range_eq_some _ img.h y hy hp hab]
  · intro hnone
    unfold lowestOpaqueRow
    rw [find?_reverse_range_eq_none _ img.h hnone]

/-- Witness: on the height-30 image opaque exactly in rows 10..20 the
locator returns row 20. -/
theorem lowestOpaqueRow_correct_witness : lowestOpaqueRow img30 = 20 :=
  (lowestOpaqueRow_correct img30).1 20 (by decide) (by decide)
    (by intro z h1 h2; have h2n : z < 30 := h2; interval_cases z <;> decide)

lemma crop_pix (img : Img) (l u r low x y : ℕ)
    (hx : x < r - l) (hy : y < low - u) :
    (img.crop l u r low).pix x y = img.pix (l + x) (u + y) := by
  unfold Img.crop Img.pix
  simp only [List.getD_eq_getElem?_getD, List.getElem?_map,
    List.getElem?_take_of_lt hy, List.getElem?_drop]
  cases hrow : img.rows[u + y]? with
  | none => simp
  | some row =>
    simp only [Option.map_some', Option.getD_some, List.getD_eq_getElem?_getD,
      List.getElem?_take_of_lt hx, List.getElem?_drop]

/-- C3: for a sheet of width at least 5 and height at least 1,
extraction yields exactly 5 frames taken left to right, frames 0..3 of
width floor(W/5), the last of width W - 4*floor(W/5), the widths
summing to W; a smaller sheet yields the sheet-too-small error. -/
theorem cropPoses_correct (sheet : Img) :
    (sheet.w < 5 ∨ sheet.h < 1 → cropPoses sheet = .error "Sprite sheet too small")
    ∧ (5 ≤ sheet.w → 1 ≤ sheet.h →
      ∃ frames, cropPoses sheet = .ok frames
        ∧ frames.length = 5
        ∧ (∀ i, i < 4 → (frames.getD i default).w = sheet.w / 5)
        ∧ (frames.getD 4 default).w = sheet.w - 4 * (sheet.w / 5)
        ∧ (frames.map Img.w).sum = sheet.w
        ∧ (∀ i, i < 5 → ∀ x y, x < (frames.getD i default).w → y < sheet.h →
            (frames.getD i default).pix x y = sheet.pix (i * (sheet.w / 5) + x) y)) := by
  constructor
  · intro h
    simp only [cropPoses, NUM_POSES]
    rw [if_pos h]
  · intro h5 h1
    have hcond : ¬ (sheet.w < NUM_POSES ∨ sheet.h < 1) := by
      unfold NUM_POSES
      omega
    have hc : 4 * (sheet.w / 5) ≤ sheet.w := by
      have := Nat.div_mul_le_self sheet.w 5
      omega
    refine ⟨(List.range NUM_POSES).map (fun i =>
        sheet.crop (i * (sheet.w / NUM_POSES)) 0
          (if i < NUM_POSES - 1 then (i + 1) * (sheet.w / NUM_POSES) else sheet.w)
          sheet.h), ?_, ?_, ?_, ?_, ?_, ?_⟩
    · simp only [cropPoses]
      rw [if_neg hcond]
    · simp [NUM_POSES]
    · intro i hi
      rw [List.getD_eq_getElem?_getD, List.getElem?_map,
        List.getElem?_range (by unfold NUM_POSES; omega), Option.map_some',
        Option.getD_some]
      unfold Img.crop NUM_POSES
      rw [if_pos (by omega : i < 5 - 1)]
      have hexp : (i + 1) * (sheet.w / 5) = i * (sheet.w / 5) + sheet.w / 5 := by ring
      simp only []
      omega
    · rw [List.getD_eq_getElem?_getD, List.getElem?_map,
        List.getElem?_range (by unfold NUM_POSES; omega), Option.map_some',
        Option.getD_some]
      unfold Img.crop NUM_POSES
      norm_num
    · have hw : ∀ i, i < 4 →
          (sheet.crop (i * (sheet.w / NUM_POSES)) 0
            (if i < NUM_POSES - 1 then (i + 1) * (sheet.w / NUM_POSES) else sheet.w)
            sheet.h).w = sheet.w / 5 := by
        intro i hi
        unfold Img.crop NUM_POSES
        rw [if_pos (by omega : i < 5 - 1)]
        have hexp : (i + 1) * (sheet.w / 5) = i * (sheet.w / 5) + sheet.w / 5 := by ring
        simp only []
        omega
      simp only [NUM_POSES, List.range_succ, List.range_zero, List.map_append,
        List.map_cons, List.map_nil, List.sum_append, List.sum_cons, List.sum_nil,
        List.nil_append, List.cons_append]
      have e0 := hw 0 (by omega)
      have e1 := hw 1 (by omega)
      have e2 := hw 2 (by omega)
      have e3 := hw 3 (by omega)
      simp only [NUM_POSES] at e0 e1 e2 e3
      rw [e0, e1, e2, e3]
      unfold Img.crop
      rw [if_neg (by omega : ¬ (4 : ℕ) < 5 - 1)]
      simp only [Nat.add_zero]
      omega
    · intro i hi x y hx hy
      rw [List.getD_eq_getElem?_getD, List.getElem?_map,
        List.getElem?_range (by unfold NUM_POSES; omega), Option.map_some',
        Option.getD_some] at hx ⊢
      have hx' : x < (if i < NUM_POSES - 1 then (i + 1) * (sheet.w / NUM_POSES) else sheet.w)
          - i * (sheet.w / NUM_POSES) := hx
      have := crop_pix sheet (i * (sheet.w / NUM_POSES)) 0
        (if i < NUM_POSES - 1 then (i + 1) * (sheet.w / NUM_POSES) else sheet.w)
        sheet.h x y hx' (by omega)
      rw [this]
      simp only [NUM_POSES, Nat.zero_add]

/-- Witness: the extractor on a 7x1 sheet returns 5 frames, the last
of width 3. -/
theorem cropPoses_correct_witness :
    ∃ frames, cropPoses sheet7 = .ok frames ∧ frames.length = 5
      ∧ (frames.getD 4 default).w = 3 := by
  obtain ⟨frames, h1, h2, h3, h4, h5, h6⟩ :=
    (cropPoses_correct sheet7).2 (by decide) (by decide)
  exact ⟨frames, h1, h2, by simpa [sheet7] using h4⟩


lemma roundHalfEven_intCast (n : ℤ) : roundHalfEven (n : ℚ) = n := by
  unfold roundHalfEven
  simp only [Int.floor_intCast, sub_self]
  norm_num

lemma roundHalfEven_natCast (n : ℕ) : roundHalfEven (n : ℚ) = n := by
  exact_mod_cast roundHalfEven_intCast (n : ℤ)

lemma ratLog2_le (y : ℚ) (hy : 0 < y) : (2 : ℚ) ^ (ratLog2 y) ≤ y := by
  have hnum : 0 < y.num := Rat.num_pos.mpr hy
  have hp0 : y.num.toNat ≠ 0 := by omega
  have hyeq : y = (y.num.toNat : ℚ) / (y.den : ℚ) := by
    have h1 : ((y.num.toNat : ℕ) : ℚ) = (y.num : ℚ) := by
      exact_mod_cast congrArg (Int.cast : ℤ → ℚ) (Int.toNat_of_nonneg (le_of_lt hnum))
    rw [h1, Rat.num_div_den]
  simp only [ratLog2]
  set e0 : ℤ := (Nat.log2 y.num.toNat : ℤ) - (Nat.log2 y.den : ℤ) with he0
  have hlog : (2 : ℚ) ^ (e0 - 1) ≤ y := by
    have hpa : (2 : ℚ) ^ ((Nat.log2 y.num.toNat : ℕ) : ℤ) ≤ (y.num.toNat : ℚ) := by
      rw [zpow_natCast]
      exact_mod_cast Nat.log2_self_le hp0
    have hqb : (y.den : ℚ) < (2 : ℚ) ^ (((Nat.log2 y.den : ℕ) : ℤ) + 1) := by
      have hc : ((Nat.log2 y.den : ℕ) : ℤ) + 1 = ((Nat.log2 y.den + 1 : ℕ) : ℤ) := by
        push_cast
        ring
      rw [hc, zpow_natCast]
      exact_mod_cast Nat.lt_log2_self
    calc (2 : ℚ) ^ (e0 - 1)
        = (2 : ℚ) ^ ((Nat.log2 y.num.toNat : ℕ) : ℤ)
            / (2 : ℚ) ^ (((Nat.log2 y.den : ℕ) : ℤ) + 1) := by
          rw [← zpow_sub₀ (by norm_num : (2:ℚ) ≠ 0)]
          congr 1
          rw [he0]
          ring
      _ ≤ (y.num.toNat : ℚ) / (y.den : ℚ) := by
          apply div_le_div₀ (by positivity) hpa (by positivity) (le_of_lt hqb)
      _ = y := hyeq.symm
  by_cases h0 : (0 : ℤ) ≤ e0
  · rw [if_pos h0]
    simp only [decide_eq_true_eq]
    by_cases hok : 2 ^ e0.toNat * y.den ≤ y.num.toNat
    · rw [if_pos hok]
      have hcast : ((2 ^ e0.toNat * y.den : ℕ) : ℚ) ≤ ((y.num.toNat : ℕ) : ℚ) := by
        exact_mod_cast hok
      push_cast at hcast
      conv_rhs => rw [hyeq]
      rw [le_div_iff₀ (by positivity)]
      rw [show e0 = ((e0.toNat : ℕ) : ℤ) from (Int.toNat_of_nonneg h0).symm, zpow_natCast]
      exact hcast
    · rw [if_neg hok]
      exact hlog
  · rw [if_neg h0]
    simp only [decide_eq_true_eq]
    by_cases hok : y.den ≤ 2 ^ (-e0).toNat * y.num.toNat
    · rw [if_pos hok]
      have he : e0 = -(((-e0).toNat : ℕ) : ℤ) := by omega
      rw [he, zpow_neg, zpow_natCast]
      conv_rhs => rw [hyeq]
      rw [le_div_iff₀ (by positivity)]
      have hcast : ((y.den : ℕ) : ℚ) ≤ ((2 ^ (-e0).toNat * y.num.toNat : ℕ) : ℚ) := by
        exact_mod_cast hok
      push_cast at hcast
      calc ((2 : ℚ) ^ (-e0).toNat)⁻¹ * (y.den : ℚ)
          ≤ ((2 : ℚ) ^ (-e0).toNat)⁻¹ * ((2 : ℚ) ^ (-e0).toNat * (y.num.toNat : ℚ)) := by
            apply mul_le_mul_of_nonneg_left hcast
            positivity
        _ = (y.num.toNat : ℚ) := by
            field_simp
    · rw [if_neg hok]
      exact hlog

/-- Exact representability: a positive dyadic rational with numerator
below 2 ^ 53 is a fixed point of double rounding. -/
lemma flDouble_eq_of_dyadic (y : ℚ) (m t : ℕ) (hy : y = (m : ℚ) / 2 ^ t)
    (hm : 0 < m) (hm53 : m < 2 ^ 53) : flDouble y = y := by
  have hy0 : 0 < y := by
    rw [hy]
    positivity
  unfold flDouble
  rw [if_neg (ne_of_gt hy0), if_pos hy0]
  unfold flPos
  have hle : (2 : ℚ) ^ (ratLog2 y) ≤ y := ratLog2_le y hy0
  have hup : y < (2 : ℚ) ^ ((53 : ℤ) - (t : ℤ)) := by
    rw [hy, zpow_sub₀ (by norm_num : (2:ℚ) ≠ 0)]
    have h53 : ((m : ℚ)) < (2 : ℚ) ^ ((53 : ℤ)) := by
      rw [show ((53:ℤ)) = ((53 : ℕ) : ℤ) from rfl, zpow_natCast]
      exact_mod_cast hm53
    have ht : (2 : ℚ) ^ ((t : ℤ)) = (2 : ℚ) ^ t := by
      rw [zpow_natCast]
    rw [ht]
    apply div_lt_div_of_pos_right h53 ?_
    positivity
  have het : ratLog2 y ≤ 52 - (t : ℤ) := by
    have h2 : (2 : ℚ) ^ (ratLog2 y) < (2 : ℚ) ^ ((53 : ℤ) - (t : ℤ)) := lt_of_le_of_lt hle hup
    have := (zpow_lt_zpow_iff_right₀ (by norm_num : (1:ℚ) < 2)).mp h2
    omega
  have hk : (0 : ℤ) ≤ 52 - ratLog2 y := by omega
  rw [if_pos hk]
  show ((roundHalfEven (y * ((2 ^ (52 - ratLog2 y).toNat : ℕ) : ℚ)) : ℤ) : ℚ)
      / ((2 ^ (52 - ratLog2 y).toNat : ℕ) : ℚ) = y
  set K := (52 - ratLog2 y).toNat with hK
  have hkt : t ≤ K := by omega
  have h2k : (2 : ℚ) ^ K = 2 ^ t * 2 ^ (K - t) := by
    rw [← pow_add]
    congr 1
    omega
  have harg : y * ((2 ^ K : ℕ) : ℚ) = ((m * 2 ^ (K - t) : ℕ) : ℚ) := by
    rw [hy]
    push_cast
    rw [h2k]
    field_simp
    ring
  rw [harg, roundHalfEven_natCast, hy]
  push_cast
  rw [h2k]
  rw [div_eq_div_iff (by positivity) (by positivity)]
  ring

/-- C2 counterexample: at x_frac = 1/2 on a background of width 3 the
code computes int(1.5) = 1, while the claimed formula
round(x_frac * bg_width) gives 2. -/
theorem targetPoint_not_round :
    (targetPoint (1/2) (1/2) 3 3).1 = 1 ∧ round ((1/2 : ℚ) * 3) = 2 := by
  constructor
  · show pyInt (flDouble ((1/2 : ℚ) * ((3 : ℕ) : ℚ))) = 1
    rw [flDouble_eq_of_dyadic _ 3 1 (by push_cast; norm_num) (by norm_num) (by norm_num)]
    unfold pyInt
    rw [if_pos (by positivity)]
    rw [Int.floor_eq_iff]
    constructor
    · push_cast
      norm_num
    · push_cast
      norm_num
  · rw [round_eq]
    rw [show ((1/2 : ℚ) * 3 + 1/2) = ((2 : ℤ) : ℚ) by push_cast; ring]
    rw [Int.floor_intCast]

/-- C2 amended: whenever the two products are exactly representable as
doubles (and the fractions nonnegative, as validation guarantees), the
sprite paste origin is the truncated target minus the anchor
(pw / 2, feet_row). -/
theorem compositeOnePaste_spec (pw feetRow : ℕ) (xf yf : ℚ) (bw bh : ℕ)
    (hx : flDouble (xf * (bw : ℚ)) = xf * (bw : ℚ))
    (hy : flDouble (yf * (bh : ℚ)) = yf * (bh : ℚ))
    (hx0 : 0 ≤ xf) (hy0 : 0 ≤ yf) :
    compositeOnePaste pw feetRow xf yf bw bh = pasteOriginSpec pw feetRow xf yf bw bh := by
  unfold compositeOnePaste targetPoint anchorPoint pasteOriginSpec pyInt
  rw [hx, hy]
  have hxn : 0 ≤ xf * (bw : ℚ) := mul_nonneg hx0 (by positivity)
  have hyn : 0 ≤ yf * (bh : ℚ) := mul_nonneg hy0 (by positivity)
  rw [if_pos hxn, if_pos hyn]

/-- Witness for the amended placement formula at pw = 4, feet row 7,
fractions 1/2 on a 4 x 8 background. -/
theorem compositeOnePaste_spec_witness :
    compositeOnePaste 4 7 (1/2) (1/2) 4 8 = (0, -3) := by
  have h := compositeOnePaste_spec 4 7 (1/2) (1/2) 4 8
    (flDouble_eq_of_dyadic _ 2 0 (by push_cast; norm_num) (by norm_num) (by norm_num))
    (flDouble_eq_of_dyadic _ 4 0 (by push_cast; norm_num) (by norm_num) (by norm_num))
    (by norm_num) (by norm_num)
  rw [h]
  unfold pasteOriginSpec
  have h1 : ((1/2 : ℚ) * ((4 : ℕ) : ℚ)) = ((2 : ℤ) : ℚ) := by push_cast; ring
  have h2 : ((1/2 : ℚ) * ((8 : ℕ) : ℚ)) = ((4 : ℤ) : ℚ) := by push_cast; ring
  rw [h1, h2, Int.floor_intCast, Int.floor_intCast]
  norm_num

/-- C5 counterexample: feet row 1, original height 2, scaled height 3:
the code computes int(1 * (3/2)) = 1, while the claimed formula
round(1 * 3 / 2) gives 2. -/
theorem feetRowScaled_not_round :
    feetRowScaled 1 2 3 = 1 ∧ round ((1 * 3 : ℚ) / 2) = 2 := by
  constructor
  · unfold feetRowScaled
    rw [if_pos (by norm_num : (0:ℕ) < 2)]
    rw [flDouble_eq_of_dyadic (((3:ℕ) : ℚ) / ((2:ℕ) : ℚ)) 3 1 (by push_cast; norm_num)
      (by norm_num) (by norm_num)]
    rw [flDouble_eq_of_dyadic _ 3 1 (by push_cast; norm_num) (by norm_num) (by norm_num)]
    unfold pyInt
    rw [if_pos (by positivity)]
    rw [show (((1:ℕ) : ℚ) * (((3:ℕ) : ℚ) / ((2:ℕ) : ℚ))) = 3/2 by push_cast; ring]
    rw [show ⌊(3/2 : ℚ)⌋ = 1 from by rw [Int.floor_eq_iff]; norm_num]
    rfl
  · rw [round_eq]
    rw [show ((1 * 3 : ℚ) / 2 + 1/2) = ((2 : ℤ) : ℚ) by push_cast; ring]
    rw [Int.floor_intCast]

/-- C5 amended: whenever the intermediate double quotient and product
are exactly representable, the rescaled feet row is the truncation of
feet_row_orig * scaled_height / orig_height, with scaled_height as the
orig_height = 0 default. -/
theorem feetRowScaled_trunc (f o s : ℕ)
    (h1 : flDouble ((s : ℚ) / (o : ℚ)) = (s : ℚ) / (o : ℚ))
    (h2 : flDouble ((f : ℚ) * ((s : ℚ) / (o : ℚ))) = (f : ℚ) * ((s : ℚ) / (o : ℚ))) :
    feetRowScaled f o s = feetRowScaledSpec f o s := by
  unfold feetRowScaled feetRowScaledSpec pyInt
  by_cases ho : 0 < o
  · rw [if_pos ho, if_pos ho, h1, h2]
    have key : (f : ℚ) * ((s : ℚ) / (o : ℚ)) = ((f * s : ℕ) : ℚ) / (o : ℚ) := by
      push_cast
      ring
    rw [key, if_pos (by positivity)]
  · rw [if_neg ho, if_neg ho]

/-- Witness for the amended feet-row formula: feet row 1, heights 2
and 4 rescale to 2. -/
theorem feetRowScaled_trunc_witness : feetRowScaled 1 2 4 = 2 := by
  have h := feetRowScaled_trunc 1 2 4
    (flDouble_eq_of_dyadic _ 2 0 (by push_cast; norm_num) (by norm_num) (by norm_num))
    (flDouble_eq_of_dyadic _ 2 0 (by push_cast; norm_num) (by norm_num) (by norm_num))
  rw [h]
  unfold feetRowScaledSpec
  rw [if_pos (by norm_num : (0:ℕ) < 2)]
  rw [show (((1 * 4 : ℕ) : ℚ) / ((2 : ℕ) : ℚ)) = ((2 : ℤ) : ℚ) by push_cast; ring]
  rw [Int.floor_intCast]
  rfl

lemma zip_setAlpha_rgb (l : List Pixel) (bs : List ℕ) (h : bs.length = l.length) :
    (List.zipWith (fun p v => { p with a := v }) l bs).map rgbOf = l.map rgbOf := by
  induction l generalizing bs with
  | nil => simp
  | cons p rest ih =>
    cases bs with
    | nil => simp at h
    | cons b bt =>
      simp only [List.zipWith_cons_cons, List.map_cons]
      rw [ih bt (by simpa using h)]
      rfl

lemma keyed_rgb (l : List Pixel) :
    (l.map keyedPixel).map rgbOf = l.map rgbOf := by
  induction l with
  | nil => rfl
  | cons p rest ih => simp [keyedPixel, rgbOf, ih]

lemma zip_rows_rgb (ks : List (List Pixel)) (bs : List (List ℕ))
    (hlen : bs.length = ks.length)
    (hrow : ∀ i, (bs.getD i []).length = (ks.getD i []).length) :
    (List.zipWith (fun pr ar => List.zipWith (fun p v => { p with a := v }) pr ar) ks bs).map
        (fun row => row.map rgbOf)
      = ks.map (fun row => row.map rgbOf) := by
  induction ks generalizing bs with
  | nil => simp
  | cons k kt ih =>
    cases bs with
    | nil => simp at hlen
    | cons b bt =>
      simp only [List.zipWith_cons_cons, List.map_cons]
      rw [zip_setAlpha_rgb k b (by simpa using hrow 0),
        ih bt (by simpa using hlen) (fun i => by simpa using hrow (i + 1))]

lemma getD_map_keyed_len (l : List (List Pixel)) (i : ℕ) :
    ((l.map (fun row => row.map keyedPixel)).getD i []).length = (l.getD i []).length := by
  rw [List.getD_eq_getElem?_getD, List.getElem?_map, List.getD_eq_getElem?_getD]
  cases l[i]? <;> simp

/-- C6: the Background Keyer never modifies the R, G, B channels: the
per-pixel pass copies them through, the Gaussian blur is applied to
the alpha channel alone, and the output recombines the unblurred RGB
with the blurred alpha.  The hypothesis states that the blur preserves
the shape of the alpha channel, as the PIL GaussianBlur does. -/
theorem keyer_preserves_rgb (blur : List (List ℕ) → List (List ℕ)) (img : Img)
    (hlen : (blur ((img.rows.map (fun row => row.map keyedPixel)).map
        (fun row => row.map Pixel.a))).length = img.rows.length)
    (hrow : ∀ i, ((blur ((img.rows.map (fun row => row.map keyedPixel)).map
        (fun row => row.map Pixel.a))).getD i []).length = (img.rows.getD i []).length) :
    rgbRows (removeWhiteBackground blur img) = rgbRows img := by
  unfold removeWhiteBackground rgbRows
  show (List.map (fun row => List.map rgbOf row)
      (if 0 < ALPHA_BLUR_RADIUS then
        List.zipWith (fun pr ar => List.zipWith (fun p v => { p with a := v }) pr ar)
          (List.map (fun row => List.map keyedPixel row) img.rows)
          (blur (List.map (fun row => List.map Pixel.a row)
            (List.map (fun row => List.map keyedPixel row) img.rows)))
      else List.map (fun row => List.map keyedPixel row) img.rows))
    = List.map (fun row => List.map rgbOf row) img.rows
  rw [if_pos (by norm_num [ALPHA_BLUR_RADIUS])]
  rw [zip_rows_rgb _ _ (by simpa using hlen)
    (fun i => by rw [getD_map_keyed_len]; exact hrow i)]
  rw [List.map_map]
  refine List.map_congr_left (fun row _ => ?_)
  simpa [Function.comp] using keyed_rgb row

/-- Witness: with the identity blur on a concrete 2x1 image, keying
leaves the RGB content unchanged. -/
theorem keyer_preserves_rgb_witness :
    rgbRows (removeWhiteBackground (fun rows => rows) imgC6) = rgbRows imgC6 := by
  apply keyer_preserves_rgb
  · rfl
  · intro i
    cases i with
    | zero => rfl
    | succ n => rfl

/-- C8: effective-scale resolution: with a scene base scale b, every
character resolves to b * (scale_override, defaulting to 1), so an
explicit override of 1 and an omitted override coincide; without a
base scale the character resolves to its own scale field. -/
theorem resolveScale_spec :
    (∀ (b : ℚ) (c : Character),
      resolveScale (some b) c = .ok (b * c.scaleOverride.getD 1))
    ∧ (∀ (b : ℚ) (c₁ c₂ : Character), c₁.scaleOverride = some 1 →
        c₂.scaleOverride = none →
        resolveScale (some b) c₁ = resolveScale (some b) c₂)
    ∧ (∀ (c : Character) (s : ℚ), c.scale = some s →
        resolveScale none c = .ok s) := by
  refine ⟨fun b c => rfl, fun b c₁ c₂ h1 h2 => ?_, fun c s hs => ?_⟩
  · unfold resolveScale
    rw [h1, h2]
    norm_num
  · unfold resolveScale
    rw [hs]

/-- Witness: base scale 1/4 with an explicit override of 1 and an
omitted override give the same effective scale 1/4. -/
theorem resolveScale_spec_witness :
    resolveScale (some (1/4)) ⟨some "a.png", some 0, some 0, some 0, none, some 1⟩
      = resolveScale (some (1/4)) ⟨some "b.png", some 0, some 0, some 0, none, none⟩
    ∧ resolveScale (some (1/4)) ⟨some "b.png", some 0, some 0, some 0, none, none⟩
      = .ok (1/4 * Option.getD none 1) :=
  ⟨resolveScale_spec.2.1 (1/4) _ _ rfl rfl, resolveScale_spec.1 (1/4) _⟩

lemma validateChar_ok_iff (fe : String → Bool) (hb : Bool) (c : Character) :
    validateChar fe hb c = .ok () ↔ charOk fe hb c := by
  unfold validateChar charOk
  constructor
  · intro h
    cases hss : c.spriteSheet with
    | none =>
      simp only [hss] at h
      simp at h
    | some p =>
      simp only [hss] at h
      by_cases hfe : fe p = false
      · rw [if_pos hfe] at h
        simp at h
      · rw [if_neg hfe] at h
        have hfet : fe p = true := by revert hfe; cases fe p <;> simp
        cases hpi : c.poseIndex with
        | none =>
          simp only [hpi] at h
          simp at h
        | some q =>
          simp only [hpi] at h
          by_cases hq : 0 ≤ q ∧ q < (NUM_POSES : ℚ)
          · rw [if_neg (not_not_intro hq)] at h
            cases hcx : c.x with
            | none =>
              simp only [hcx] at h
              simp at h
            | some x =>
              simp only [hcx] at h
              cases hcy : c.y with
              | none =>
                simp only [hcy] at h
                simp at h
              | some yv =>
                simp only [hcy] at h
                by_cases hxy : 0 ≤ x ∧ x ≤ 1 ∧ 0 ≤ yv ∧ yv ≤ 1
                · rw [if_neg (not_not_intro hxy)] at h
                  refine ⟨⟨p, rfl, hfet⟩,
                    ⟨q, rfl, hq.1, by simpa [NUM_POSES] using hq.2⟩,
                    ⟨x, rfl, hxy.1, hxy.2.1⟩,
                    ⟨yv, rfl, hxy.2.2.1, hxy.2.2.2⟩, ?_, ?_⟩
                  · intro hbt so hso
                    rw [hbt] at h
                    rw [if_pos rfl] at h
                    simp only [hso] at h
                    by_cases hso2 : 0 < so ∧ so ≤ 2
                    · exact hso2
                    · rw [if_pos hso2] at h
                      simp at h
                  · intro hbf
                    rw [hbf] at h
                    rw [if_neg (by simp)] at h
                    cases hsc : c.scale with
                    | none =>
                      simp only [hsc] at h
                      simp at h
                    | some s =>
                      simp only [hsc] at h
                      by_cases hs2 : 0 < s ∧ s ≤ 1
                      · exact ⟨s, rfl, hs2.1, hs2.2⟩
                      · rw [if_pos hs2] at h
                        simp at h
                · rw [if_pos hxy] at h
                  simp at h
          · rw [if_pos hq] at h
            simp at h
  · rintro ⟨⟨p, hss, hfe⟩, ⟨q, hpi, hq0, hq5⟩, ⟨x, hcx, hx0, hx1⟩,
      ⟨yv, hcy, hy0, hy1⟩, hov, hscl⟩
    simp only [hss, hpi, hcx, hcy]
    rw [if_neg (by simp [hfe])]
    rw [if_neg (not_not_intro ⟨hq0, by simpa [NUM_POSES] using hq5⟩)]
    rw [if_neg (not_not_intro ⟨hx0, hx1, hy0, hy1⟩)]
    cases hb with
    | true =>
      rw [if_pos rfl]
      cases hso : c.scaleOverride with
      | none => rfl
      | some so =>
        simp only [hso]
        rw [if_neg (not_not_intro (hov rfl so hso))]
    | false =>
      rw [if_neg (by simp)]
      obtain ⟨s, hs, hs1, hs2⟩ := hscl rfl
      simp only [hs]
      rw [if_neg (not_not_intro ⟨hs1, hs2⟩)]

lemma validateChars_ok_iff (fe : String → Bool) (hb : Bool) (l : List Character) :
    validateChars fe hb l = .ok () ↔ ∀ c ∈ l, validateChar fe hb c = .ok () := by
  induction l with
  | nil => simp [validateChars]
  | cons c rest ih =>
    unfold validateChars
    cases hvc : validateChar fe hb c with
    | ok u =>
      cases u
      simp [hvc, ih]
    | error e =>
      simp [hvc]

lemma validateConfig_ok_iff (fe : String → Bool) (cfg : Config) :
    validateConfig fe cfg = .ok () ↔ configOk fe cfg := by
  cases hbg : cfg.background with
  | none =>
    unfold validateConfig configOk
    simp [hbg]
  | some bg =>
    cases hch : cfg.characters with
    | none =>
      unfold validateConfig configOk
      simp [hbg, hch]
    | some chars =>
      have hiff : validateChars fe cfg.baseScale.isSome chars = .ok ()
          ↔ ∀ c ∈ chars, charOk fe cfg.baseScale.isSome c := by
        rw [validateChars_ok_iff]
        constructor
        · intro h c hc
          exact (validateChar_ok_iff _ _ _).mp (h c hc)
        · intro h c hc
          exact (validateChar_ok_iff _ _ _).mpr (h c hc)
      unfold validateConfig configOk
      simp only [hbg, hch]
      by_cases hfe : fe bg = false
      · rw [if_pos hfe]
        simp [hfe]
      · rw [if_neg hfe]
        have hfet : fe bg = true := by revert hfe; cases fe bg <;> simp
        constructor
        · intro h
          cases hvc : validateChars fe cfg.baseScale.isSome chars with
          | error e =>
            simp only [hvc] at h
            simp at h
          | ok u =>
            cases u
            simp only [hvc] at h
            refine ⟨⟨bg, rfl, hfet⟩, ⟨chars, rfl, hiff.mp hvc⟩, ?_⟩
            intro bs hbsc
            simp only [hbsc] at h
            by_cases hb2 : 0 < bs ∧ bs ≤ 1
            · exact hb2
            · rw [if_pos hb2] at h
              simp at h
        · rintro ⟨⟨bg2, hbg2, hfe2⟩, ⟨chars2, hch2, hall⟩, hbsok⟩
          injection hbg2 with hbg3
          subst hbg3
          injection hch2 with hch3
          subst hch3
          simp only [hiff.mpr hall]
          cases hbsc : cfg.baseScale with
          | none => rfl
          | some bs =>
            show (if ¬ (0 < bs ∧ bs ≤ 1) then Except.error "base_scale out of range"
              else Except.ok ()) = Except.ok ()
            rw [if_neg (not_not_intro (hbsok bs hbsc))]

/-- C9 (amended): the Config Validator accepts a config exactly when
every constraint of configOk holds — the claim as stated, except that
pose_index integrality is not checked (any numeric value in range
passes) and that referenced files must also exist. -/
theorem validateConfig_exact (fe : String → Bool) (cfg : Config) :
    validateConfig fe cfg = .ok () ↔ configOk fe cfg :=
  validateConfig_ok_iff fe cfg

/-- C9 counterexample: a config whose pose_index is the non-integer
5/2 (inside [0,4]) passes validation, although the claim requires a
validation error for any non-integral pose_index. -/
theorem validateConfig_accepts_nonintegral_pose :
    validateConfig (fun _ => true) cfgHalfPose = .ok ()
    ∧ ¬ ∃ n : ℤ, ((5 : ℚ)/2) = (n : ℚ) := by
  constructor
  · apply (validateConfig_ok_iff (fun _ => true) cfgHalfPose).mpr
    refine ⟨⟨"bg.png", rfl, rfl⟩, ⟨_, rfl, ?_⟩, ?_⟩
    · intro c hc
      simp only [List.mem_singleton] at hc
      subst hc
      refine ⟨⟨"sheet.png", rfl, rfl⟩, ⟨5/2, rfl, by norm_num, by norm_num⟩,
        ⟨1/2, rfl, by norm_num, by norm_num⟩, ⟨1/2, rfl, by norm_num, by norm_num⟩,
        ?_, ?_⟩
      · intro hbt
        simp [cfgHalfPose] at hbt
      · intro hbf
        exact ⟨1/2, rfl, by norm_num, by norm_num⟩
    · intro bs hbs
      simp [cfgHalfPose] at hbs
  · rintro ⟨n, hn⟩
    have h5 : (5 : ℚ) = n * 2 := by
      field_simp at hn
      linarith
    have h5z : (5 : ℤ) = n * 2 := by exact_mod_cast h5
    omega

/-- Witness: a config meeting every constraint passes validation. -/
theorem validateConfig_exact_witness :
    validateConfig (fun _ => true) cfgValid = .ok () := by
  apply (validateConfig_exact (fun _ => true) cfgValid).mpr
  refine ⟨⟨"bg.png", rfl, rfl⟩, ⟨_, rfl, ?_⟩, ?_⟩
  · intro c hc
    simp only [List.mem_singleton] at hc
    subst hc
    refine ⟨⟨"s.png", rfl, rfl⟩, ⟨2, rfl, by norm_num, by norm_num⟩,
      ⟨1/2, rfl, by norm_num, by norm_num⟩, ⟨3/4, rfl, by norm_num, by norm_num⟩,
      ?_, ?_⟩
    · intro hbt so hso
      have h1 : (some (1:ℚ)) = some so := hso
      injection h1 with h2
      subst h2
      norm_num
    · intro hbf
      simp [cfgValid] at hbf
  · intro bs hbs
    have h1 : (some ((1:ℚ)/4)) = some bs := hbs
    injection h1 with h2
    subst h2
    norm_num

lemma compositeChars_events_open (env : Env) (background : Img) (bw bh : ℕ)
    (bs : Option ℚ) (chars : List Character) :
    ∀ canvas ev, ev ∈ (compositeChars env background bw bh bs canvas chars).1 →
      ∃ p, ev = Event.openImage p := by
  induction chars with
  | nil =>
    intro canvas ev hev
    simp [compositeChars] at hev
  | cons c rest ih =>
    intro canvas ev hev
    unfold compositeChars at hev
    cases hss : c.spriteSheet with
    | none =>
      simp only [hss] at hev
      simp at hev
    | some sheetPath =>
      simp only [hss] at hev
      cases hcp : cropPoses ((env.load sheetPath).toRGB) with
      | error e =>
        simp only [hcp] at hev
        simp at hev
        exact ⟨sheetPath, hev⟩
      | ok poses =>
        simp only [hcp] at hev
        cases hpi : c.poseIndex with
        | none =>
          simp only [hpi] at hev
          simp at hev
          exact ⟨sheetPath, hev⟩
        | some idx =>
          simp only [hpi] at hev
          cases hli : listIndex poses idx with
          | error e =>
            simp only [hli] at hev
            simp at hev
            exact ⟨sheetPath, hev⟩
          | ok pose =>
            simp only [hli] at hev
            cases hrs : resolveScale bs c with
            | error e =>
              simp only [hrs] at hev
              simp at hev
              exact ⟨sheetPath, hev⟩
            | ok scale =>
              simp only [hrs] at hev
              cases hcx : c.x with
              | none =>
                simp only [hcx] at hev
                simp at hev
                exact ⟨sheetPath, hev⟩
              | some xf =>
                simp only [hcx] at hev
                cases hcy : c.y with
                | none =>
                  simp only [hcy] at hev
                  simp at hev
                  exact ⟨sheetPath, hev⟩
                | some yf =>
                  simp only [hcy] at hev
                  rcases List.mem_cons.mp hev with h | h
                  · exact ⟨sheetPath, h⟩
                  · exact ih _ ev h

lemma composite_events_open (env : Env) (cfg : Config) :
    ∀ ev ∈ (composite env cfg).1, ∃ p, ev = Event.openImage p := by
  intro ev hev
  unfold composite at hev
  cases hv : validateConfig env.fileExists cfg with
  | error e =>
    simp only [hv] at hev
    simp at hev
  | ok u =>
    cases u
    simp only [hv] at hev
    cases hbg : cfg.background with
    | none =>
      simp only [hbg] at hev
      simp at hev
    | some bgPath =>
      simp only [hbg] at hev
      cases hch : cfg.characters with
      | none =>
        simp only [hch] at hev
        simp at hev
      | some chars =>
        simp only [hch] at hev
        rcases List.mem_cons.mp hev with h | h
        · exact ⟨bgPath, h⟩
        · exact compositeChars_events_open env _ _ _ _ chars _ ev h

/-- C10: when validation fails, composite performs no image open at
all (its event trace is empty); and composite_to_file records a PNG
save exactly when the full composite succeeded, so no output file is
written on any failure. -/
theorem composite_no_partial_output (env : Env) (cfg : Config) (out : String) :
    ((∃ e, validateConfig env.fileExists cfg = .error e) → (composite env cfg).1 = [])
    ∧ (Event.savePng out ∈ (compositeToFile env cfg out).1 ↔
        ∃ img, (composite env cfg).2 = .ok img)
    ∧ ((compositeToFile env cfg out).2 = .ok () ↔
        ∃ img, (composite env cfg).2 = .ok img) := by
  refine ⟨?_, ?_, ?_⟩
  · rintro ⟨e, he⟩
    unfold composite
    rw [he]
  · unfold compositeToFile
    cases hc : (composite env cfg).2 with
    | ok img =>
      simp only [hc]
      constructor
      · intro _
        exact ⟨img, rfl⟩
      · intro _
        simp
    | error e =>
      simp only [hc]
      constructor
      · intro hmem
        rcases List.mem_cons.mp hmem with h | h
        · exact absurd h (by simp)
        · obtain ⟨p, hp⟩ := composite_events_open env cfg _ h
          exact absurd hp (by simp)
      · rintro ⟨img, him⟩
        exact absurd him (by simp)
  · unfold compositeToFile
    cases hc : (composite env cfg).2 with
    | ok img =>
      simp only [hc]
      constructor
      · intro _
        exact ⟨img, rfl⟩
      · intro _
        trivial
    | error e =>
      simp only [hc]
      constructor
      · intro h
        exact absurd h (by simp)
      · rintro ⟨img, him⟩
        exact absurd him (by simp)

/-- Witness: on a config that fails validation, composite opens no
image at all. -/
theorem composite_no_partial_output_witness :
    (composite envW cfgNoBg).1 = [] :=
  (composite_no_partial_output envW cfgNoBg "out.png").1
    ⟨"Config must include background", rfl⟩

